import Mathlib

/-!
The simple_shell program: tokenizer, path resolver and dispatcher.

A shallow embedding of `src/main.c` (`parse_input`, `handle_path`,
`execute_command`, `handle_error`) together with the libc primitives they call
(`strtok`, `snprintf`, `getenv`, `access`, `fork`, `execve`, `waitpid`).

Conventions of the embedding

* A C string is the list of its characters before the terminating NUL; one
  `Char` stands for one `char`.
* `strtok` keeps its scan position in hidden static storage; here the saved
  position is threaded explicitly as the still unscanned suffix of the buffer.
* The `int` counters `bufsize` and `position` are 32 bits wide: each
  `position++` and `bufsize += 64` is checked against `INT_MAX`, and an
  overflow, which C leaves undefined, ends the run in the fault
  `signed_overflow`. `size_t` and pointers are 64 bits wide, so
  `bufsize * sizeof(char *)` does not wrap.
* `strdup` of a string is taken to succeed; the source does not test its result.
* The environment (search-path variable, file system, result of `fork`,
  result of `execve`, what each `waitpid` call does, the indeterminate first
  content of the local `status`) is a record of oracles, and every call that
  reaches the environment is logged as an `Event`.
* A `waitpid` call either stores a child state in `status` or fails and leaves
  `status` untouched; the source ignores the value it returns.
-/

namespace SimpleShell

/-! ## Strings and libc string primitives -/

/-- The characters of a NUL-terminated C string, terminator excluded. -/
abbrev CString := List Char

/-- The macro `DELIMITERS`, that is `" \t\r\n\a"`. -/
def DELIMITERS : CString := [' ', '\t', '\r', '\n', Char.ofNat 7]

/-- The libc `strspn`: length of the longest prefix made of characters of `accept`. -/
def strspn (s accept : CString) : Nat :=
  (s.takeWhile (fun c => accept.contains c)).length

/-- The libc `strcspn`: length of the longest prefix free of characters of `reject`. -/
def strcspn (s reject : CString) : Nat :=
  (s.takeWhile (fun c => !reject.contains c)).length

/-- One call of libc `strtok` at scan position `s` (the buffer itself on the
first call, the saved position on a call with a NULL first argument).
Returns the token, or `none` for NULL, and the new saved position: leading
delimiters are skipped, the token runs up to the next delimiter, that
delimiter is overwritten by NUL and the scan resumes right after it. -/
def strtok (s delim : CString) : Option CString × CString :=
  let s1 := s.drop (strspn s delim)
  if s1.isEmpty then (none, s1)
  else
    let n := strcspn s1 delim
    (some (s1.take n), (s1.drop n).drop 1)

/-- The call `snprintf(buf, size, "%s/%s", directory, command)`: the formatted
text is cut to at most `size - 1` characters (the last byte holds the NUL). -/
def snprintf_path (size : Nat) (directory command : CString) : CString :=
  (directory ++ '/' :: command).take (size - 1)

/-! ## Faults -/

/-- Abnormal ends of a function of the program. -/
inductive Fault where
  /-- The branch `fprintf(stderr, "allocation error\n"); exit(EXIT_FAILURE);`. -/
  | allocation_error
  /-- A store or a load outside the allocated token array. -/
  | out_of_bounds
  /-- A NULL pointer handed to a libc function that dereferences it. -/
  | null_deref
  /-- An `int` computation whose result does not fit in an `int`. -/
  | signed_overflow
  /-- The bound on loop iterations of the embedding was too small. -/
  | out_of_fuel
  deriving DecidableEq, Repr

/-! ## The token array of `parse_input` -/

/-- One `char *` cell of the token array. -/
inductive Slot where
  /-- Allocated, never written. -/
  | uninit
  /-- The NULL terminator. -/
  | null
  /-- A pointer to a token inside the input line. -/
  | ptr (s : CString)
  deriving DecidableEq, Repr

/-- The array `char **tokens`: its length is the number of allocated cells. -/
abbrev TokenArray := List Slot

/-- The assignment `tokens[i] = v`, checked against the allocated size. -/
def store (a : TokenArray) (i : Nat) (v : Slot) : Except Fault TokenArray :=
  if i < a.length then .ok (a.set i v) else .error .out_of_bounds

/-- A successful `realloc(tokens, n * sizeof(char *))`: contents are kept, new cells are unwritten. -/
def realloc (a : TokenArray) (n : Nat) : TokenArray :=
  a.take n ++ List.replicate (n - a.length) Slot.uninit

/-- The strings of a NULL-terminated `char **` vector, read as `execve` or a
loop over `args[i]` reads it; `none` when an unwritten cell or the end of the
allocation comes before the terminator. -/
def argv_of : TokenArray → Option (List CString)
  | [] => none
  | Slot.uninit :: _ => none
  | Slot.null :: _ => some []
  | Slot.ptr s :: rest => (argv_of rest).map (fun l => s :: l)

/-- The macro `INT_MAX` of a 32-bit `int`. -/
def INT_MAX : Nat := 2147483647

/-- Local variables of `parse_input`, with a ghost log of the stores. -/
structure ParseState where
  /-- The variable `bufsize`. -/
  bufsize : Nat
  /-- The variable `position`. -/
  position : Nat
  /-- The array `tokens`. -/
  tokens : TokenArray
  /-- Ghost: the pair `(position, bufsize)` at each store `tokens[position] = …`, oldest first. -/
  stores : List (Nat × Nat)
  deriving DecidableEq, Repr

/-- The loop `while (token != NULL) { … }` of `parse_input`. `alloc n` tells
whether the allocator grants a request for `n` cells; `token` and `save` are
the loop variable and the saved scan position of `strtok`. The two `int`
updates `position++` and `bufsize += 64` fault when the result exceeds
`INT_MAX`. -/
def parse_loop (alloc : Nat → Bool) :
    Nat → Option CString → CString → ParseState → Except Fault ParseState
  | 0, _, _, _ => .error .out_of_fuel
  | _ + 1, none, _, st => .ok st
  | fuel + 1, some token, save, st =>
    match store st.tokens st.position (Slot.ptr token) with
    | .error f => .error f
    | .ok tokens =>
      let stores := st.stores ++ [(st.position, st.bufsize)]
      if st.position + 1 > INT_MAX then .error .signed_overflow
      else
        let position := st.position + 1
        if position ≥ st.bufsize then
          if st.bufsize + 64 > INT_MAX then .error .signed_overflow
          else
            let bufsize := st.bufsize + 64
            if alloc bufsize then
              parse_loop alloc fuel (strtok save DELIMITERS).1 (strtok save DELIMITERS).2
                ⟨bufsize, position, realloc tokens bufsize, stores⟩
            else .error .allocation_error
        else
          parse_loop alloc fuel (strtok save DELIMITERS).1 (strtok save DELIMITERS).2
            ⟨st.bufsize, position, tokens, stores⟩

/-- The function `parse_input`. The result is the final state: `tokens` is the
returned array, `position` the index of its terminator. -/
def parse_input (alloc : Nat → Bool) (input : CString) : Except Fault ParseState :=
  if alloc 64 then
    match parse_loop alloc (input.length + 1) (strtok input DELIMITERS).1
        (strtok input DELIMITERS).2 ⟨64, 0, List.replicate 64 Slot.uninit, []⟩ with
    | .error f => .error f
    | .ok st =>
      match store st.tokens st.position Slot.null with
      | .error f => .error f
      | .ok tokens =>
        .ok ⟨st.bufsize, st.position, tokens, st.stores ++ [(st.position, st.bufsize)]⟩
  else .error .allocation_error

/-- An allocator that grants every request. -/
def grant_all : Nat → Bool := fun _ => true

/-! ## Environment, events and outcomes -/

/-- The child state that `waitpid(pid, &status, WUNTRACED)` stores in `status`. -/
inductive Status where
  /-- The child called `exit` or returned from `main`. -/
  | exited (code : Nat)
  /-- The child was killed by a signal. -/
  | signaled (sig : Nat)
  /-- The child was stopped by a signal (reported because of `WUNTRACED`). -/
  | stopped (sig : Nat)
  /-- Any other content of the `int`, such as a continued child or stack garbage. -/
  | other (raw : Nat)
  deriving DecidableEq, Repr

/-- The macro `WIFEXITED`. -/
def WIFEXITED : Status → Bool
  | Status.exited _ => true
  | _ => false

/-- The macro `WIFSIGNALED`. -/
def WIFSIGNALED : Status → Bool
  | Status.signaled _ => true
  | _ => false

/-- What one call `waitpid(pid, &status, WUNTRACED)` does. -/
inductive WaitResult where
  /-- The call returns the pid after storing the child state in `status`. -/
  | reported (s : Status)
  /-- The call returns -1 (`ECHILD`, `EINTR`) and stores nothing. -/
  | failed
  deriving DecidableEq, Repr

/-- What every `waitpid` call beyond the listed ones does. -/
inductive WaitEnd where
  /-- The call never returns: the child has no further state change to report. -/
  | blocks
  /-- The call fails at once (`ECHILD`: no child is left to wait for). -/
  | fails
  deriving DecidableEq, Repr

/-- What the process finds around it during one call of `execute_command`. -/
structure Env where
  /-- The value of `getenv("PATH")`, `none` for NULL (variable not set). -/
  path : Option CString
  /-- Whether `access(p, X_OK)` returns 0. -/
  access : CString → Bool
  /-- The value `fork()` returns in the process that is followed. -/
  fork : Int
  /-- Whether `execve` succeeds (it returns only when it fails). -/
  execve_ok : Bool
  /-- The content of the local `int status` before the first `waitpid`: the
  source does not initialise it. -/
  status_init : Status
  /-- What the successive `waitpid` calls do, in order. -/
  waits : List WaitResult
  /-- What the `waitpid` calls after those of `waits` do. -/
  waits_end : WaitEnd

/-- A call that reaches the environment. -/
inductive Event where
  /-- The call `getenv(name)`. -/
  | getenv (name : CString)
  /-- The call `access(path, X_OK)`. -/
  | access (path : CString)
  /-- Text written by `fprintf(stderr, …)`. -/
  | stderr (text : CString)
  /-- The call `perror(prefix)`, which also writes to standard error. -/
  | perror (pre : CString)
  /-- The call `fork()`. -/
  | fork
  /-- The call `execve(path, argv, NULL)`. -/
  | execve (path : CString) (argv : TokenArray)
  /-- The call `waitpid(pid, &status, WUNTRACED)`. -/
  | waitpid (pid : Int)
  deriving DecidableEq, Repr

/-- How a call of `execute_command` ends in the process that is followed. -/
inductive Outcome where
  /-- Control is back in the caller. -/
  | returned
  /-- The program image was replaced by `execve`. -/
  | image_replaced
  /-- The process ended through `exit(code)`. -/
  | exited (code : Nat)
  /-- The process sits in `waitpid`, which has no further status to report. -/
  | blocked
  /-- The do-while loop repeats a failing `waitpid` without end; the log holds
  the first of these calls. -/
  | spinning
  /-- Undefined behaviour or abort. -/
  | fault (f : Fault)
  deriving DecidableEq, Repr

/-! ## `handle_path` -/

/-- The loop `while (directory != NULL) { … }` of `handle_path`; `directory`
and `save` are the loop variable and the saved scan position of `strtok`. -/
def handle_path_loop (access : CString → Bool) (command : CString) :
    Nat → Option CString → CString → List Event × Except Fault (Option CString)
  | 0, _, _ => ([], .error .out_of_fuel)
  | _ + 1, none, _ => ([], .ok none)
  | fuel + 1, some directory, save =>
    let full_path := snprintf_path 1024 directory command
    if access full_path then
      ([Event.access full_path], .ok (some full_path))
    else
      let r := handle_path_loop access command fuel (strtok save [':']).1 (strtok save [':']).2
      (Event.access full_path :: r.1, r.2)

/-- The function `handle_path`: the log of its calls and its result, `.ok none`
for the NULL return. With the variable unset `strdup(NULL)` dereferences NULL. -/
def handle_path (env : Env) (command : CString) :
    List Event × Except Fault (Option CString) :=
  match env.path with
  | none => ([Event.getenv "PATH".toList], .error .null_deref)
  | some path =>
    let r := handle_path_loop env.access command (path.length + 1)
      (strtok path [':']).1 (strtok path [':']).2
    (Event.getenv "PATH".toList :: r.1, r.2)

/-! ## `execute_command` -/

/-- The function `handle_error`. -/
def handle_error (argv0 command message : CString) : List Event :=
  [Event.stderr (argv0 ++ ": ".toList ++ command ++ ": ".toList ++ message ++ "\n".toList)]

/-- The loop `do { waitpid(…); } while (!WIFEXITED(status) && !WIFSIGNALED(status));`
run from the current content of `status` against the `waitpid` calls still to
come. A call that fails leaves `status` as it was, and the condition is
tested on it all the same. -/
def wait_loop (pid : Int) (tail : WaitEnd) : Status → List WaitResult → List Event × Outcome
  | status, [] =>
    match tail with
    | WaitEnd.blocks => ([Event.waitpid pid], Outcome.blocked)
    | WaitEnd.fails =>
      if !WIFEXITED status && !WIFSIGNALED status then
        ([Event.waitpid pid], Outcome.spinning)
      else
        ([Event.waitpid pid], Outcome.returned)
  | status, result :: later =>
    let status := match result with
      | WaitResult.reported s => s
      | WaitResult.failed => status
    if !WIFEXITED status && !WIFSIGNALED status then
      let r := wait_loop pid tail status later
      (Event.waitpid pid :: r.1, r.2)
    else
      ([Event.waitpid pid], Outcome.returned)

/-- The function `execute_command`: the log of its calls and how it ends. -/
def execute_command (env : Env) (args : TokenArray) (argv : CString) : List Event × Outcome :=
  match args with
  | [] => ([], Outcome.fault .out_of_bounds)
  | Slot.uninit :: _ => ([], Outcome.fault .out_of_bounds)
  | Slot.null :: _ => ([], Outcome.returned)
  | Slot.ptr first :: _ =>
    match handle_path env first with
    | (log, .error f) => (log, Outcome.fault f)
    | (log, .ok none) =>
      (log ++ handle_error argv first "command not found".toList, Outcome.returned)
    | (log, .ok (some command)) =>
      let pid := env.fork
      if pid = 0 then
        if env.execve_ok then
          (log ++ [Event.fork, Event.execve command args], Outcome.image_replaced)
        else
          (log ++ [Event.fork, Event.execve command args, Event.perror "execve".toList],
            Outcome.exited 1)
      else if pid < 0 then
        (log ++ [Event.fork, Event.perror "fork".toList], Outcome.returned)
      else
        let r := wait_loop pid env.waits_end env.status_init env.waits
        (log ++ Event.fork :: r.1, r.2)

/-- The events of a log that write to standard error. -/
def stderr_writes (log : List Event) : List Event :=
  log.filter (fun e => match e with
    | Event.stderr _ => true
    | Event.perror _ => true
    | _ => false)

/-- The `access` probes of a log, in order. -/
def access_probes (log : List Event) : List CString :=
  log.filterMap (fun e => match e with
    | Event.access p => some p
    | _ => none)

/-- The `execve` requests of a log: executable and argument vector. -/
def execve_calls (log : List Event) : List (CString × TokenArray) :=
  log.filterMap (fun e => match e with
    | Event.execve p a => some (p, a)
    | _ => none)

/-- The number of `waitpid` calls of a log. -/
def waitpid_calls (log : List Event) : Nat :=
  log.countP (fun e => match e with
    | Event.waitpid _ => true
    | _ => false)

/-! ## Specification-side notions -/

/-- Written from the specification, not from the code: the text is split at
every character of `delim` and the empty pieces are dropped, which leaves the
maximal non-empty runs of non-delimiter characters, left to right. -/
def spec_fields (delim s : CString) : List CString :=
  (s.splitOnP (fun c => delim.contains c)).filter (fun t => !t.isEmpty)

/-- Written from the specification: `MaximalRuns delim s ts` says that `s` reads
`gap₀ t₁ gap₁ t₂ … tₙ gapₙ` where `ts = [t₁, …, tₙ]`, every `tᵢ` is non-empty and
free of delimiters, every gap consists of delimiters only and the gaps between
two tokens are non-empty. -/
inductive MaximalRuns (delim : CString) : CString → List CString → Prop where
  | done (gap : CString) (hgap : ∀ c ∈ gap, c ∈ delim) : MaximalRuns delim gap []
  | last (gap tok : CString) (hgap : ∀ c ∈ gap, c ∈ delim) (hne : tok ≠ [])
      (htok : ∀ c ∈ tok, c ∉ delim) : MaximalRuns delim (gap ++ tok) [tok]
  | more (gap tok : CString) (sep : Char) (rest : CString) (toks : List CString)
      (hgap : ∀ c ∈ gap, c ∈ delim) (hne : tok ≠ []) (htok : ∀ c ∈ tok, c ∉ delim)
      (hsep : sep ∈ delim) (hrest : MaximalRuns delim rest toks) :
      MaximalRuns delim (gap ++ tok ++ sep :: rest) (tok :: toks)

/-- The capacity that goes with a write index: 64 cells, plus 64 each time the index reaches it. -/
def capacity_at (position : Nat) : Nat := 64 * (position / 64 + 1)

/-- Loop invariant of `parse_input`: the array has `bufsize` cells, `bufsize` is
the capacity for `position`, and the stores so far were at indices
`0, …, position - 1`, each under the capacity of its time. -/
def ParseInv (st : ParseState) : Prop :=
  st.tokens.length = st.bufsize ∧ st.bufsize = capacity_at st.position ∧
    st.stores = (List.range st.position).map (fun i => (i, capacity_at i))

/-- Written from the specification: the directories of a search-path string are
its non-empty `:`-separated fields. -/
def search_dirs (path : CString) : List CString := spec_fields [':'] path

/-- The candidate that the resolver forms for one directory. -/
def candidate (command directory : CString) : CString :=
  snprintf_path 1024 directory command

/-- Written from the specification: the left-most directory whose candidate
passes the executable-access check. -/
def first_match (access : CString → Bool) (command : CString) (dirs : List CString) :
    Option CString :=
  dirs.find? (fun d => access (candidate command d))

/-- Written from the specification: the candidates of the directories before the
first match, all failing the check, then the candidate of the first match. -/
def probes_upto (access : CString → Bool) (command : CString) (dirs : List CString) :
    List CString :=
  (dirs.takeWhile (fun d => !access (candidate command d))).map (candidate command) ++
    ((first_match access command dirs).map (candidate command)).toList

/-! ## Sample environments -/

/-- A search path of two directories where only `/bin/ls` is executable; `fork`
returns pid 5 and the child is reported stopped, then exited. -/
def sample_env : Env :=
  ⟨some "/usr/bin:/bin".toList, fun p => p == "/bin/ls".toList, 5, true, Status.other 255,
    [WaitResult.reported (Status.stopped 19), WaitResult.reported (Status.exited 0)],
    WaitEnd.blocks⟩

/-- The environment `sample_env` as the child of the `fork` sees it. -/
def sample_child_env : Env :=
  ⟨some "/usr/bin:/bin".toList, fun p => p == "/bin/ls".toList, 0, true, Status.other 255,
    [], WaitEnd.blocks⟩

/-- The environment `sample_env` with `SIGCHLD` ignored, a disposition that
`execve` hands down from the parent of the shell: the first `waitpid` fails
with `ECHILD` once the child is gone, and the unset `status` happens to hold 0. -/
def sigchld_ignored_env : Env :=
  ⟨some "/usr/bin:/bin".toList, fun p => p == "/bin/ls".toList, 5, true, Status.exited 0,
    [], WaitEnd.fails⟩

/-- The environment `sample_env` with `SIGCHLD` ignored and a child that is
stopped once: the stop is reported, every later `waitpid` fails with `ECHILD`. -/
def stopped_then_gone_env : Env :=
  ⟨some "/usr/bin:/bin".toList, fun p => p == "/bin/ls".toList, 5, true, Status.other 255,
    [WaitResult.reported (Status.stopped 19)], WaitEnd.fails⟩

/-- A search path holding `/bin`, a directory the user may search, so that
`access("/bin/", X_OK)` succeeds. -/
def bin_env : Env :=
  ⟨some "/bin".toList, fun p => p == "/bin/".toList, 5, true, Status.other 255,
    [WaitResult.reported (Status.exited 0)], WaitEnd.blocks⟩

/-- A directory four levels deep, 1004 characters long. -/
def deep_dir : CString := (List.replicate 4 ('/' :: List.replicate 250 'a')).flatten

/-- A search path holding only `deep_dir`, in which the one executable file is
named by 18 letters `x`. -/
def deep_env : Env :=
  ⟨some deep_dir, fun p => p == deep_dir ++ '/' :: List.replicate 18 'x', 5, true,
    Status.other 255, [WaitResult.reported (Status.exited 0)], WaitEnd.blocks⟩

/-- A search path holding only `deep_dir`, in which the one executable file is
named by 30 letters `x`. -/
def deep_env_long_name : Env :=
  ⟨some deep_dir, fun p => p == deep_dir ++ '/' :: List.replicate 30 'x', 5, true,
    Status.other 255, [WaitResult.reported (Status.exited 0)], WaitEnd.blocks⟩

/-- An environment in which the search-path variable is not set. -/
def unset_env : Env :=
  ⟨none, fun p => p == "/bin/ls".toList, 5, true, Status.other 255,
    [WaitResult.reported (Status.exited 0)], WaitEnd.blocks⟩

/-- A line of `2 ^ 31 - 64` one-letter words, each followed by a blank. -/
def huge_line : CString := (List.replicate 2147483584 "a ".toList).flatten

/-! ## `strtok` -/

theorem drop_length_takeWhile (p : Char → Bool) (l : List Char) :
    l.drop (l.takeWhile p).length = l.dropWhile p := by
  induction l with
  | nil => rfl
  | cons a t ih =>
    by_cases h : p a
    · simp [List.takeWhile_cons, List.dropWhile_cons, h, ih]
    · simp [List.takeWhile_cons, List.dropWhile_cons, h]

theorem take_length_takeWhile (p : Char → Bool) (l : List Char) :
    l.take (l.takeWhile p).length = l.takeWhile p := by
  induction l with
  | nil => rfl
  | cons a t ih =>
    by_cases h : p a
    · simp [List.takeWhile_cons, h, ih]
    · simp [List.takeWhile_cons, h]

theorem dropWhile_head_false (p : Char → Bool) (l : List Char) (a : Char) (t : List Char)
    (h : l.dropWhile p = a :: t) : p a = false := by
  induction l with
  | nil => cases h
  | cons b u ih =>
    by_cases hb : p b
    · rw [List.dropWhile_cons, if_pos hb] at h
      exact ih h
    · rw [List.dropWhile_cons, if_neg hb] at h
      cases h
      simpa using hb

/-- `strtok` in terms of `takeWhile` and `dropWhile`. -/
theorem strtok_eq (s delim : CString) :
    strtok s delim =
      if (s.dropWhile (fun c => delim.contains c)).isEmpty then
        (none, s.dropWhile (fun c => delim.contains c))
      else
        (some ((s.dropWhile (fun c => delim.contains c)).takeWhile (fun c => !delim.contains c)),
          (((s.dropWhile (fun c => delim.contains c)).dropWhile
            (fun c => !delim.contains c)).drop 1)) := by
  simp only [strtok, strspn, strcspn, drop_length_takeWhile, take_length_takeWhile]

/-- The shape of the scanned text when `strtok` returns NULL or a token. -/
theorem strtok_cases (s delim : CString) :
    ((strtok s delim).1 = none ∧ ∀ c ∈ s, c ∈ delim) ∨
    (∃ gap tok, (strtok s delim).1 = some tok ∧ (∀ c ∈ gap, c ∈ delim) ∧ tok ≠ [] ∧
      (∀ c ∈ tok, c ∉ delim) ∧
      ((s = gap ++ tok ∧ (strtok s delim).2 = []) ∨
       ∃ sep, sep ∈ delim ∧ s = gap ++ tok ++ sep :: (strtok s delim).2)) := by
  have hsplit := List.takeWhile_append_dropWhile (fun c => delim.contains c) s
  have hgap : ∀ c ∈ s.takeWhile (fun c => delim.contains c), c ∈ delim := by
    intro c hc
    simpa using List.mem_takeWhile_imp hc
  cases h1 : s.dropWhile (fun c => delim.contains c) with
  | nil =>
    left
    refine ⟨by rw [strtok_eq, h1]; rfl, ?_⟩
    have := List.dropWhile_eq_nil_iff.mp h1
    simpa using this
  | cons a t =>
    right
    have e : strtok s delim = (some ((a :: t).takeWhile (fun c => !delim.contains c)),
        ((a :: t).dropWhile (fun c => !delim.contains c)).drop 1) := by
      rw [strtok_eq, h1]; rfl
    have ha : delim.contains a = false := dropWhile_head_false _ s a t h1
    have hsplit2 := List.takeWhile_append_dropWhile (fun c => !delim.contains c) (a :: t)
    have htok : ∀ c ∈ (a :: t).takeWhile (fun c => !delim.contains c), c ∉ delim := by
      intro c hc
      simpa using List.mem_takeWhile_imp hc
    have hne : (a :: t).takeWhile (fun c => !delim.contains c) ≠ [] := by
      rw [List.takeWhile_cons, ha]
      exact List.cons_ne_nil _ _
    rw [e]
    refine ⟨s.takeWhile (fun c => delim.contains c),
      (a :: t).takeWhile (fun c => !delim.contains c), rfl, hgap, hne, htok, ?_⟩
    cases h2 : (a :: t).dropWhile (fun c => !delim.contains c) with
    | nil =>
      left
      rw [h2, List.append_nil] at hsplit2
      refine ⟨?_, rfl⟩
      rw [hsplit2, ← h1, hsplit]
    | cons sep rest =>
      right
      have hsep : sep ∈ delim := by
        have := dropWhile_head_false (fun c => !delim.contains c) (a :: t) sep rest h2
        simpa using this
      refine ⟨sep, hsep, ?_⟩
      show s = _ ++ _ ++ sep :: rest
      rw [List.append_assoc, ← h2, hsplit2, ← h1, hsplit]

/-- A call that returns a token moves the saved position strictly forward. -/
theorem strtok_save_length (s delim : CString) (tok : CString)
    (h : (strtok s delim).1 = some tok) : (strtok s delim).2.length < s.length := by
  rcases strtok_cases s delim with ⟨h0, _⟩ | ⟨gap, tok2, _, _, hne, _, hs | ⟨sep, _, hs⟩⟩
  · rw [h0] at h; cases h
  · have hl := congrArg List.length hs.1
    have : 0 < tok2.length := List.length_pos.mpr hne
    rw [hs.2]; simp at hl ⊢; omega
  · have hl := congrArg List.length hs
    simp at hl; omega

/-! ## `spec_fields` follows the `strtok` iteration -/

theorem spec_fields_skip (delim gap s : CString) (hgap : ∀ c ∈ gap, c ∈ delim) :
    spec_fields delim (gap ++ s) = spec_fields delim s := by
  induction gap with
  | nil => rfl
  | cons a t ih =>
    have ha : delim.contains a = true := by simpa using hgap a (List.mem_cons_self _ _)
    have ht : ∀ c ∈ t, c ∈ delim := fun c hc => hgap c (List.mem_cons_of_mem _ hc)
    have := ih ht
    simp only [spec_fields] at this ⊢
    rw [List.cons_append, List.splitOnP_cons, if_pos ha, List.filter_cons]
    exact this

theorem spec_fields_of_delims (delim gap : CString) (hgap : ∀ c ∈ gap, c ∈ delim) :
    spec_fields delim gap = [] := by
  have := spec_fields_skip delim gap [] hgap
  rw [List.append_nil] at this
  rw [this]; rfl

theorem spec_fields_single (delim tok : CString) (hne : tok ≠ [])
    (htok : ∀ c ∈ tok, c ∉ delim) : spec_fields delim tok = [tok] := by
  have h : ∀ x ∈ tok, ¬ (fun c => delim.contains c) x = true := by
    intro x hx; simpa using htok x hx
  simp only [spec_fields, List.splitOnP_eq_single _ _ h]
  cases tok with
  | nil => exact absurd rfl hne
  | cons a t => rfl

theorem spec_fields_first (delim tok : CString) (sep : Char) (rest : CString) (hne : tok ≠ [])
    (htok : ∀ c ∈ tok, c ∉ delim) (hsep : sep ∈ delim) :
    spec_fields delim (tok ++ sep :: rest) = tok :: spec_fields delim rest := by
  have h : ∀ x ∈ tok, ¬ (fun c => delim.contains c) x = true := by
    intro x hx; simpa using htok x hx
  have hs : (fun c => delim.contains c) sep = true := by simpa using hsep
  simp only [spec_fields, List.splitOnP_first _ _ h sep hs]
  cases tok with
  | nil => exact absurd rfl hne
  | cons a t => rfl

/-- The fields of a text are the token of the first `strtok` call followed by
the fields of the text after the saved position. -/
theorem spec_fields_strtok (s delim : CString) :
    spec_fields delim s =
      match (strtok s delim).1 with
      | none => []
      | some tok => tok :: spec_fields delim (strtok s delim).2 := by
  rcases strtok_cases s delim with ⟨h0, hall⟩ | ⟨gap, tok, h1, hgap, hne, htok, hs | ⟨sep, hsep, hs⟩⟩
  · rw [h0]; exact spec_fields_of_delims delim s hall
  · rw [h1, hs.2]
    show spec_fields delim s = tok :: spec_fields delim []
    conv_lhs => rw [hs.1]
    rw [spec_fields_skip delim gap tok hgap, spec_fields_single delim tok hne htok]
    rfl
  · rw [h1]
    show spec_fields delim s = tok :: spec_fields delim (strtok s delim).2
    conv_lhs => rw [hs]
    rw [List.append_assoc, spec_fields_skip delim gap _ hgap,
      spec_fields_first delim tok sep _ hne htok hsep]

/-- The fields of a text are its maximal runs of non-delimiter characters. -/
theorem spec_fields_maximal_runs (delim : CString) :
    ∀ (n : Nat) (s : CString), s.length < n → MaximalRuns delim s (spec_fields delim s) := by
  intro n
  induction n with
  | zero => intro s h; omega
  | succ n ih =>
    intro s hlen
    rw [spec_fields_strtok]
    rcases strtok_cases s delim with
      ⟨h0, hall⟩ | ⟨gap, tok, h1, hgap, hne, htok, hs | ⟨sep, hsep, hs⟩⟩
    · rw [h0]; exact MaximalRuns.done s hall
    · rw [h1, hs.2]
      show MaximalRuns delim s [tok]
      rw [hs.1]; exact MaximalRuns.last gap tok hgap hne htok
    · have hlt := strtok_save_length s delim tok h1
      rw [h1]
      show MaximalRuns delim s (tok :: spec_fields delim (strtok s delim).2)
      conv => arg 2; rw [hs]
      exact MaximalRuns.more gap tok sep _ _ hgap hne htok hsep (ih _ (by omega))

theorem spec_fields_length_le (delim : CString) :
    ∀ (n : Nat) (s : CString), s.length < n → (spec_fields delim s).length ≤ s.length := by
  intro n
  induction n with
  | zero => intro s h; omega
  | succ n ih =>
    intro s hlen
    rw [spec_fields_strtok]
    cases h1 : (strtok s delim).1 with
    | none => simp
    | some tok =>
      have hlt := strtok_save_length s delim tok h1
      have := ih (strtok s delim).2 (by omega)
      simp only [List.length_cons]
      omega

/-! ## The token loop of `parse_input` -/

theorem take_set_succ (v : Slot) : ∀ (l : TokenArray) (i : Nat), i < l.length →
    (l.set i v).take (i + 1) = l.take i ++ [v] := by
  intro l
  induction l with
  | nil => intro i h; simp at h
  | cons a t ih =>
    intro i h
    cases i with
    | zero => simp
    | succ j =>
      have := ih j (by simpa using h)
      simp [List.set_cons_succ, List.take_succ_cons, this]

theorem realloc_length (a : TokenArray) (n : Nat) (h : a.length ≤ n) :
    (realloc a n).length = n := by
  simp [realloc]; omega

theorem realloc_take (a : TokenArray) (n k : Nat) (hk : k ≤ a.length) (h : a.length ≤ n) :
    (realloc a n).take k = a.take k := by
  rw [realloc, List.take_of_length_le h, List.take_append_of_le_length hk]

/-- The number of tokens from which on the run overflows: `INT_MAX - 63`, the
first capacity that cannot grow by 64. -/
theorem token_limit_eq : 2147483584 = INT_MAX - 63 := rfl

/-- With an allocator that grants every request and fewer than `2 ^ 31 - 64`
tokens in all, the token loop ends normally, keeps the invariant, and has
stored the fields of the scanned text. -/
theorem parse_loop_grant_all :
    ∀ (n : Nat) (s : CString) (st : ParseState), s.length < n → ParseInv st →
      st.position + (spec_fields DELIMITERS s).length < 2147483584 →
      ∃ st', parse_loop grant_all n (strtok s DELIMITERS).1 (strtok s DELIMITERS).2 st = .ok st' ∧
        ParseInv st' ∧ st'.position = st.position + (spec_fields DELIMITERS s).length ∧
        st'.tokens.take st'.position =
          st.tokens.take st.position ++ (spec_fields DELIMITERS s).map Slot.ptr := by
  intro n
  induction n with
  | zero => intro s st h; omega
  | succ n ih =>
    intro s st hlen hinv hfew
    obtain ⟨hlenT, hbuf, hstores⟩ := hinv
    have hf := spec_fields_strtok s DELIMITERS
    cases h1 : (strtok s DELIMITERS).1 with
    | none =>
      rw [h1] at hf
      refine ⟨st, rfl, ⟨hlenT, hbuf, hstores⟩, ?_, ?_⟩
      · rw [hf]; rfl
      · rw [hf]; simp
    | some tok =>
      rw [h1] at hf
      rw [hf] at hfew
      simp only [List.length_cons] at hfew
      have hlt := strtok_save_length s DELIMITERS tok h1
      have hcap : st.position < st.bufsize := by rw [hbuf, capacity_at]; omega
      have hpos : st.position < st.tokens.length := by omega
      have hstore : store st.tokens st.position (Slot.ptr tok) =
          .ok (st.tokens.set st.position (Slot.ptr tok)) := by
        simp [store, hpos]
      have hlog : st.stores ++ [(st.position, st.bufsize)] =
          (List.range (st.position + 1)).map (fun i => (i, capacity_at i)) := by
        rw [List.range_succ, List.map_append, ← hstores, hbuf]; rfl
      have hno1 : ¬ st.position + 1 > INT_MAX := by simp only [INT_MAX]; omega
      by_cases hge : st.position + 1 ≥ st.bufsize
      · have hno2 : ¬ st.bufsize + 64 > INT_MAX := by
          simp only [INT_MAX, capacity_at] at hbuf ⊢; omega
        obtain ⟨st', hrun, hinv', hpos', htake'⟩ := ih (strtok s DELIMITERS).2
          ⟨st.bufsize + 64, st.position + 1,
            realloc (st.tokens.set st.position (Slot.ptr tok)) (st.bufsize + 64),
            st.stores ++ [(st.position, st.bufsize)]⟩ (by omega)
          ⟨by rw [realloc_length _ _ (by rw [List.length_set]; omega)],
            by simp only [capacity_at] at hbuf ⊢; omega, hlog⟩ (by simp only; omega)
        refine ⟨st', ?_, hinv', ?_, ?_⟩
        · rw [parse_loop, hstore]
          simp only [hno1, hno2, hge, grant_all, if_true, if_false]
          exact hrun
        · rw [hpos', hf]; simp only [List.length_cons]; omega
        · rw [htake', hf]
          simp only
          rw [realloc_take _ _ _ (by rw [List.length_set]; omega) (by rw [List.length_set]; omega),
            take_set_succ _ _ _ hpos]
          simp
      · obtain ⟨st', hrun, hinv', hpos', htake'⟩ := ih (strtok s DELIMITERS).2
          ⟨st.bufsize, st.position + 1, st.tokens.set st.position (Slot.ptr tok),
            st.stores ++ [(st.position, st.bufsize)]⟩ (by omega)
          ⟨by rw [List.length_set]; exact hlenT,
            by simp only [capacity_at] at hbuf ⊢; omega, hlog⟩ (by simp only; omega)
        refine ⟨st', ?_, hinv', ?_, ?_⟩
        · rw [parse_loop, hstore]
          simp only [hno1, hge, if_false]
          exact hrun
        · rw [hpos', hf]; simp only [List.length_cons]; omega
        · rw [htake', hf]
          simp only
          rw [take_set_succ _ _ _ hpos]
          simp

/-- With `2 ^ 31 - 64` tokens or more the token loop ends in a signed
overflow: once `position` has reached the capacity `2 ^ 31 - 64`, the step
`bufsize += 64` leaves the range of `int`. -/
theorem parse_loop_overflow :
    ∀ (n : Nat) (s : CString) (st : ParseState), s.length < n → ParseInv st →
      st.position < 2147483584 →
      2147483584 ≤ st.position + (spec_fields DELIMITERS s).length →
      parse_loop grant_all n (strtok s DELIMITERS).1 (strtok s DELIMITERS).2 st =
        .error .signed_overflow := by
  intro n
  induction n with
  | zero => intro s st h; omega
  | succ n ih =>
    intro s st hlen hinv hbelow hmany
    obtain ⟨hlenT, hbuf, hstores⟩ := hinv
    have hf := spec_fields_strtok s DELIMITERS
    cases h1 : (strtok s DELIMITERS).1 with
    | none =>
      rw [h1] at hf
      rw [hf] at hmany
      simp only [List.length_nil] at hmany
      omega
    | some tok =>
      rw [h1] at hf
      rw [hf] at hmany
      simp only [List.length_cons] at hmany
      have hlt := strtok_save_length s DELIMITERS tok h1
      have hcap : st.position < st.bufsize := by rw [hbuf, capacity_at]; omega
      have hpos : st.position < st.tokens.length := by omega
      have hstore : store st.tokens st.position (Slot.ptr tok) =
          .ok (st.tokens.set st.position (Slot.ptr tok)) := by
        simp [store, hpos]
      have hlog : st.stores ++ [(st.position, st.bufsize)] =
          (List.range (st.position + 1)).map (fun i => (i, capacity_at i)) := by
        rw [List.range_succ, List.map_append, ← hstores, hbuf]; rfl
      have hno1 : ¬ st.position + 1 > INT_MAX := by simp only [INT_MAX]; omega
      rw [parse_loop, hstore]
      by_cases hge : st.position + 1 ≥ st.bufsize
      · by_cases hov : st.bufsize + 64 > INT_MAX
        · simp only [hno1, hov, hge, if_true, if_false]
        · simp only [hno1, hov, hge, grant_all, if_true, if_false]
          exact ih (strtok s DELIMITERS).2
            ⟨st.bufsize + 64, st.position + 1,
              realloc (st.tokens.set st.position (Slot.ptr tok)) (st.bufsize + 64),
              st.stores ++ [(st.position, st.bufsize)]⟩ (by omega)
            ⟨by rw [realloc_length _ _ (by rw [List.length_set]; omega)],
              by simp only [capacity_at] at hbuf ⊢; omega, hlog⟩
            (by simp only [INT_MAX, capacity_at] at hbuf hov ⊢; omega) (by simp only; omega)
      · simp only [hno1, hge, if_false]
        exact ih (strtok s DELIMITERS).2
          ⟨st.bufsize, st.position + 1, st.tokens.set st.position (Slot.ptr tok),
            st.stores ++ [(st.position, st.bufsize)]⟩ (by omega)
          ⟨by rw [List.length_set]; exact hlenT,
            by simp only [capacity_at] at hbuf ⊢; omega, hlog⟩
          (by simp only [capacity_at] at hbuf ⊢; omega) (by simp only; omega)

/-- An allocator that refuses a request makes the loop abort; otherwise the
run is the one of the allocator that grants everything. -/
theorem parse_loop_any_alloc (alloc : Nat → Bool) :
    ∀ (n : Nat) (tok : Option CString) (save : CString) (st : ParseState),
      parse_loop alloc n tok save st = .error .allocation_error ∨
      parse_loop alloc n tok save st = parse_loop grant_all n tok save st := by
  intro n
  induction n with
  | zero => intro tok save st; right; rfl
  | succ n ih =>
    intro tok save st
    cases tok with
    | none => right; rfl
    | some token =>
      rw [parse_loop, parse_loop]
      cases hs : store st.tokens st.position (Slot.ptr token) with
      | error f => right; rfl
      | ok tokens =>
        simp only
        by_cases hov1 : st.position + 1 > INT_MAX
        · right; simp only [hov1, if_true]
        · by_cases hge : st.position + 1 ≥ st.bufsize
          · by_cases hov2 : st.bufsize + 64 > INT_MAX
            · right; simp only [hov1, hov2, hge, if_true, if_false]
            · simp only [hov1, hov2, hge, if_true, if_false]
              cases ha : alloc (st.bufsize + 64) with
              | false => left; rfl
              | true =>
                simp only [grant_all, if_true]
                exact ih _ _ _
          · simp only [hov1, hge, if_false]
            exact ih _ _ _

theorem argv_of_written (toks : List CString) (rest : TokenArray) :
    argv_of (toks.map Slot.ptr ++ Slot.null :: rest) = some toks := by
  induction toks with
  | nil => rfl
  | cons t ts ih =>
    show (argv_of (ts.map Slot.ptr ++ Slot.null :: rest)).map (fun l => t :: l) = some (t :: ts)
    rw [ih]; rfl

/-- The state that `parse_input` returns when every allocation is granted and
the line has fewer than `2 ^ 31 - 64` tokens. -/
theorem parse_input_grant_all (line : CString)
    (hfew : (spec_fields DELIMITERS line).length < 2147483584) :
    ∃ st, parse_input grant_all line = .ok st ∧
      st.position = (spec_fields DELIMITERS line).length ∧
      st.bufsize = capacity_at st.position ∧ st.tokens.length = st.bufsize ∧
      st.tokens.take (st.position + 1) =
        (spec_fields DELIMITERS line).map Slot.ptr ++ [Slot.null] ∧
      st.stores = (List.range (st.position + 1)).map (fun i => (i, capacity_at i)) := by
  obtain ⟨st', hrun, ⟨hlen, hbuf, hstores⟩, hpos, htake⟩ :=
    parse_loop_grant_all (line.length + 1) line ⟨64, 0, List.replicate 64 Slot.uninit, []⟩
      (by omega) ⟨by simp, rfl, rfl⟩ (by simp only; omega)
  have hcap : st'.position < st'.tokens.length := by
    rw [hlen, hbuf, capacity_at]; omega
  have hstore : store st'.tokens st'.position Slot.null =
      .ok (st'.tokens.set st'.position Slot.null) := by
    simp [store, hcap]
  refine ⟨⟨st'.bufsize, st'.position, st'.tokens.set st'.position Slot.null,
    st'.stores ++ [(st'.position, st'.bufsize)]⟩, ?_, ?_, hbuf, ?_, ?_, ?_⟩
  · have hg : grant_all 64 = true := rfl
    rw [parse_input, if_pos hg, hrun]
    simp only [hstore]
  · simpa using hpos
  · simpa using hlen
  · show (st'.tokens.set st'.position Slot.null).take (st'.position + 1) = _
    rw [take_set_succ _ _ _ hcap, htake]
    simp
  · show st'.stores ++ [(st'.position, st'.bufsize)] = _
    rw [List.range_succ, List.map_append, ← hstores, hbuf]; rfl

/-- On a line of `2 ^ 31 - 64` tokens or more `parse_input` does not return:
the run ends in a signed overflow of `bufsize`. -/
theorem parse_input_overflow (line : CString)
    (hmany : 2147483584 ≤ (spec_fields DELIMITERS line).length) :
    parse_input grant_all line = .error .signed_overflow := by
  have hg : grant_all 64 = true := rfl
  rw [parse_input, if_pos hg,
    parse_loop_overflow (line.length + 1) line ⟨64, 0, List.replicate 64 Slot.uninit, []⟩
      (by omega) ⟨by simp, rfl, rfl⟩ (by simp only; omega) (by simp only; omega)]

/-- A run of `parse_input` that returns had fewer than `2 ^ 31 - 64` tokens to store. -/
theorem parse_input_ok_few (line : CString) (st : ParseState)
    (h : parse_input grant_all line = .ok st) :
    (spec_fields DELIMITERS line).length < 2147483584 := by
  by_contra hnot
  rw [parse_input_overflow line (by omega)] at h
  cases h

theorem parse_input_any_alloc (alloc : Nat → Bool) (line : CString) :
    parse_input alloc line = .error .allocation_error ∨
    parse_input alloc line = parse_input grant_all line := by
  rw [parse_input, parse_input]
  cases ha : alloc 64 with
  | false => left; rfl
  | true =>
    have hg : grant_all 64 = true := rfl
    rw [if_pos rfl, if_pos hg]
    rcases parse_loop_any_alloc alloc (line.length + 1) (strtok line DELIMITERS).1
      (strtok line DELIMITERS).2 ⟨64, 0, List.replicate 64 Slot.uninit, []⟩ with h | h
    · left; rw [h]
    · right; rw [h]

/-- The vector returned by `parse_input` reads as the fields of the line. -/
theorem parse_input_argv (line : CString)
    (hfew : (spec_fields DELIMITERS line).length < 2147483584) :
    ∃ st, parse_input grant_all line = .ok st ∧
      argv_of st.tokens = some (spec_fields DELIMITERS line) ∧
      st.tokens.head? = ((spec_fields DELIMITERS line).map Slot.ptr ++ [Slot.null]).head? := by
  obtain ⟨st, hrun, hpos, _, _, htake, _⟩ := parse_input_grant_all line hfew
  refine ⟨st, hrun, ?_, ?_⟩
  · have := List.take_append_drop (st.position + 1) st.tokens
    rw [htake] at this
    rw [← this, List.append_assoc]
    exact argv_of_written _ _
  · have := List.take_append_drop (st.position + 1) st.tokens
    rw [htake] at this
    rw [← this]
    cases spec_fields DELIMITERS line <;> rfl

/-- A line shorter than `2 ^ 31 - 64` characters has fewer than `2 ^ 31 - 64` tokens. -/
theorem few_tokens_of_short (line : CString) (h : line.length < 2147483584) :
    (spec_fields DELIMITERS line).length < 2147483584 := by
  have hle := spec_fields_length_le DELIMITERS (line.length + 1) line (by omega)
  omega

theorem MaximalRuns.tokens_clean {delim s : CString} {ts : List CString}
    (h : MaximalRuns delim s ts) : ∀ t ∈ ts, t ≠ [] ∧ ∀ c ∈ t, c ∉ delim := by
  induction h with
  | done gap hgap => intro t ht; cases ht
  | last gap tok hgap hne htok =>
    intro t ht
    rw [List.mem_singleton] at ht
    subst ht
    exact ⟨hne, htok⟩
  | more gap tok sep rest toks hgap hne htok hsep hrest ih =>
    intro t ht
    rcases List.mem_cons.mp ht with rfl | ht
    · exact ⟨hne, htok⟩
    · exact ih t ht

/-- A text has one list of maximal runs only, the one `spec_fields` computes. -/
theorem MaximalRuns.eq_spec_fields {delim s : CString} {ts : List CString}
    (h : MaximalRuns delim s ts) : ts = spec_fields delim s := by
  induction h with
  | done gap hgap => exact (spec_fields_of_delims delim gap hgap).symm
  | last gap tok hgap hne htok =>
    rw [spec_fields_skip delim gap tok hgap, spec_fields_single delim tok hne htok]
  | more gap tok sep rest toks hgap hne htok hsep hrest ih =>
    rw [List.append_assoc, spec_fields_skip delim gap _ hgap,
      spec_fields_first delim tok sep rest hne htok hsep, ← ih]

/-! ## The directory loop of `handle_path` -/

theorem handle_path_loop_spec (access : CString → Bool) (command : CString) :
    ∀ (n : Nat) (s : CString), s.length < n →
      handle_path_loop access command n (strtok s [':']).1 (strtok s [':']).2 =
        ((probes_upto access command (spec_fields [':'] s)).map Event.access,
          .ok ((first_match access command (spec_fields [':'] s)).map (candidate command))) := by
  intro n
  induction n with
  | zero => intro s h; omega
  | succ n ih =>
    intro s hlen
    have hf := spec_fields_strtok s [':']
    cases h1 : (strtok s [':']).1 with
    | none =>
      rw [h1] at hf
      rw [hf]
      rfl
    | some dir =>
      rw [h1] at hf
      have hlt := strtok_save_length s [':'] dir h1
      have hrec := ih (strtok s [':']).2 (by omega)
      rw [hf, handle_path_loop]
      simp only
      rw [hrec]
      by_cases hacc : access (snprintf_path 1024 dir command) = true
      · simp [probes_upto, first_match, candidate, hacc]
      · simp [probes_upto, first_match, candidate, hacc]

/-- The function `handle_path` on a search path that is set: the log is the
`getenv` call followed by the probes up to the first match, the result is the
candidate of the first match. -/
theorem handle_path_spec (env : Env) (path command : CString) (hp : env.path = some path) :
    handle_path env command =
      (Event.getenv "PATH".toList ::
          (probes_upto env.access command (search_dirs path)).map Event.access,
        .ok ((first_match env.access command (search_dirs path)).map (candidate command))) := by
  rw [handle_path, hp]
  simp only
  rw [handle_path_loop_spec env.access command (path.length + 1) path (by omega)]
  rfl

theorem handle_path_unset (env : Env) (command : CString) (hp : env.path = none) :
    handle_path env command = ([Event.getenv "PATH".toList], .error .null_deref) := by
  rw [handle_path, hp]

/-- Only `getenv` and `access` are called by `handle_path`, `getenv` first. -/
theorem handle_path_log (env : Env) (command : CString) :
    ∃ probes : List CString,
      (handle_path env command).1 = Event.getenv "PATH".toList :: probes.map Event.access := by
  cases hp : env.path with
  | none => exact ⟨[], by rw [handle_path_unset env command hp]; rfl⟩
  | some path => exact ⟨_, by rw [handle_path_spec env path command hp]⟩

theorem first_match_some_iff (access : CString → Bool) (command : CString)
    (dirs : List CString) (d : CString) :
    first_match access command dirs = some d ↔
      access (candidate command d) = true ∧ ∃ before after, dirs = before ++ d :: after ∧
        ∀ b ∈ before, access (candidate command b) = false := by
  rw [first_match, List.find?_eq_some]
  simp

theorem first_match_none_iff (access : CString → Bool) (command : CString)
    (dirs : List CString) :
    first_match access command dirs = none ↔
      ∀ d ∈ dirs, access (candidate command d) = false := by
  rw [first_match, List.find?_eq_none]
  simp

/-! ## Tokenizer claims -/

set_option maxRecDepth 200000

/-- Below the overflow: on every input line with fewer than `2 ^ 31 - 64`
tokens `parse_input` returns the NULL-terminated vector of the maximal
non-empty runs of non-delimiter characters of the line, in order, also beyond
the first 64 cells: with every allocation granted it returns, the vector reads
as `spec_fields DELIMITERS line`, its cell at `position` (the number of
tokens) is the terminator; with any other allocator it either aborts on a
refused allocation or returns the same; `spec_fields DELIMITERS line` is the
one list of maximal runs of the line, none of them empty, none containing a
delimiter; `"ls -l /tmp"` gives `ls`, `-l`, `/tmp`, `"   echo   hi  "` gives
`echo`, `hi`, and a line of 130 words gives its 130 words in an array grown to
192 cells. -/
theorem parse_input_maximal_runs (line : CString)
    (hfew : (spec_fields DELIMITERS line).length < 2147483584) :
    (∃ st, parse_input grant_all line = .ok st ∧
      argv_of st.tokens = some (spec_fields DELIMITERS line) ∧
      st.position = (spec_fields DELIMITERS line).length ∧
      st.tokens.take (st.position + 1) =
        (spec_fields DELIMITERS line).map Slot.ptr ++ [Slot.null]) ∧
    (∀ alloc, parse_input alloc line = .error .allocation_error ∨
      parse_input alloc line = parse_input grant_all line) ∧
    (∀ ts, MaximalRuns DELIMITERS line ts ↔ ts = spec_fields DELIMITERS line) ∧
    (∀ t ∈ spec_fields DELIMITERS line, t ≠ [] ∧ ∀ c ∈ t, c ∉ DELIMITERS) ∧
    (∃ st, parse_input grant_all "ls -l /tmp".toList = .ok st ∧
      argv_of st.tokens = some ["ls".toList, "-l".toList, "/tmp".toList]) ∧
    (∃ st, parse_input grant_all "   echo   hi  ".toList = .ok st ∧
      argv_of st.tokens = some ["echo".toList, "hi".toList]) ∧
    (∃ st, parse_input grant_all (List.replicate 130 "ab ".toList).flatten = .ok st ∧
      argv_of st.tokens = some (List.replicate 130 "ab".toList) ∧ st.bufsize = 192) := by
  have hruns := spec_fields_maximal_runs DELIMITERS (line.length + 1) line (by omega)
  refine ⟨?_, fun alloc => parse_input_any_alloc alloc line,
    fun ts => ⟨fun h => h.eq_spec_fields, fun h => h ▸ hruns⟩, hruns.tokens_clean,
    ⟨_, rfl, rfl⟩, ⟨_, rfl, rfl⟩, ⟨_, rfl, rfl, rfl⟩⟩
  obtain ⟨st, hrun, hpos, _, _, htake, _⟩ := parse_input_grant_all line hfew
  obtain ⟨st2, hrun2, hargv, _⟩ := parse_input_argv line hfew
  have hst : st2 = st := by
    have := hrun2.symm.trans hrun
    exact Except.ok.inj this
  subst hst
  exact ⟨st2, hrun, hargv, hpos, htake⟩

/-- Below the overflow: on every input line with fewer than `2 ^ 31 - 64`
tokens every store `tokens[position] = …` of `parse_input`, for a token or for
the final terminator, happens at a `position` strictly below the `bufsize` of
that moment: the stores are at indices `0, 1, …, n` for `n` tokens, under the
capacities `64 * (i / 64 + 1)`, and the array always has `bufsize` cells. On
any line no run, whatever the allocator, ends in an out-of-bounds store before
it returns, aborts or overflows. -/
theorem parse_input_stores_in_bounds (line : CString)
    (hfew : (spec_fields DELIMITERS line).length < 2147483584) :
    (∃ st, parse_input grant_all line = .ok st ∧
      st.stores = (List.range ((spec_fields DELIMITERS line).length + 1)).map
        (fun i => (i, capacity_at i)) ∧
      (∀ e ∈ st.stores, e.1 < e.2 ∧ e.2 ≤ INT_MAX) ∧
      st.position < st.bufsize ∧ st.tokens.length = st.bufsize) ∧
    (∀ alloc, parse_input alloc line ≠ .error .out_of_bounds) := by
  obtain ⟨st, hrun, hpos, hbuf, hlen, _, hstores⟩ := parse_input_grant_all line hfew
  refine ⟨⟨st, hrun, by rw [hstores, hpos], ?_, by rw [hbuf, capacity_at]; omega, hlen⟩, ?_⟩
  · intro e he
    rw [hstores, List.mem_map] at he
    obtain ⟨i, hi, rfl⟩ := he
    rw [List.mem_range] at hi
    simp only [capacity_at, INT_MAX]
    omega
  · intro alloc h
    rcases parse_input_any_alloc alloc line with h2 | h2
    · rw [h] at h2; cases h2
    · rw [h2, hrun] at h; cases h

/-- The fields of `n` copies of the word `a` followed by a blank. -/
theorem spec_fields_words (n : Nat) :
    spec_fields DELIMITERS (List.replicate n "a ".toList).flatten =
      List.replicate n "a".toList := by
  induction n with
  | zero => rfl
  | succ n ih =>
    rw [List.replicate_succ, List.replicate_succ, List.flatten_cons, ← ih]
    exact spec_fields_first DELIMITERS ['a'] ' ' _ (by simp) (by decide) (by decide)

/-- C1 at its failing input: on the line of `2 ^ 31 - 64` words `a`, whose
maximal runs are these `2 ^ 31 - 64` words, `parse_input` does not return
them: when `position` reaches the capacity `2 ^ 31 - 64` the step
`bufsize += 64` overflows `int`, whatever the allocator grants. -/
theorem parse_input_huge_line_overflows :
    parse_input grant_all huge_line = .error .signed_overflow ∧
    spec_fields DELIMITERS huge_line = List.replicate 2147483584 "a".toList ∧
    (∀ alloc st, parse_input alloc huge_line ≠ .ok st) := by
  have hf : spec_fields DELIMITERS huge_line = List.replicate 2147483584 "a".toList :=
    spec_fields_words 2147483584
  have hov : parse_input grant_all huge_line = .error .signed_overflow :=
    parse_input_overflow huge_line (by rw [hf, List.length_replicate])
  refine ⟨hov, hf, ?_⟩
  intro alloc st h
  rcases parse_input_any_alloc alloc huge_line with h2 | h2
  · rw [h] at h2; cases h2
  · rw [h2, hov] at h; cases h

theorem argv_of_cons (args : TokenArray) (command : CString) (rest : List CString)
    (h : argv_of args = some (command :: rest)) :
    ∃ tail, args = Slot.ptr command :: tail := by
  cases args with
  | nil => cases h
  | cons a tail =>
    cases a with
    | uninit => cases h
    | null => cases h
    | ptr s =>
      refine ⟨tail, ?_⟩
      have h2 : (argv_of tail).map (fun l => s :: l) = some (command :: rest) := h
      cases ht : argv_of tail with
      | none => rw [ht] at h2; cases h2
      | some l =>
        rw [ht] at h2
        have h3 : s :: l = command :: rest := Option.some.inj h2
        rw [(List.cons.inj h3).1]

theorem execute_command_of_not_found (env : Env) (first : CString) (tail : TokenArray)
    (argv : CString) (h : (handle_path env first).2 = .ok none) :
    execute_command env (Slot.ptr first :: tail) argv =
      ((handle_path env first).1 ++ handle_error argv first "command not found".toList,
        Outcome.returned) := by
  rw [execute_command]
  generalize handle_path env first = r at h ⊢
  obtain ⟨log, res⟩ := r
  simp only at h
  subst h
  rfl

theorem execute_command_of_found (env : Env) (first : CString) (tail : TokenArray)
    (argv command : CString) (h : (handle_path env first).2 = .ok (some command)) :
    execute_command env (Slot.ptr first :: tail) argv =
      if env.fork = 0 then
        if env.execve_ok then
          ((handle_path env first).1 ++
            [Event.fork, Event.execve command (Slot.ptr first :: tail)], Outcome.image_replaced)
        else
          ((handle_path env first).1 ++
            [Event.fork, Event.execve command (Slot.ptr first :: tail),
              Event.perror "execve".toList], Outcome.exited 1)
      else if env.fork < 0 then
        ((handle_path env first).1 ++ [Event.fork, Event.perror "fork".toList],
          Outcome.returned)
      else
        ((handle_path env first).1 ++ Event.fork ::
            (wait_loop env.fork env.waits_end env.status_init env.waits).1,
          (wait_loop env.fork env.waits_end env.status_init env.waits).2) := by
  rw [execute_command]
  generalize handle_path env first = r at h ⊢
  obtain ⟨log, res⟩ := r
  simp only at h
  subst h
  rfl

/-- The log of `handle_path` writes nothing to standard error and holds no
`fork`, `execve` or `waitpid`. -/
theorem handle_path_log_quiet (env : Env) (command : CString) :
    stderr_writes (handle_path env command).1 = [] ∧
    Event.fork ∉ (handle_path env command).1 ∧
    execve_calls (handle_path env command).1 = [] ∧
    waitpid_calls (handle_path env command).1 = 0 := by
  obtain ⟨probes, h⟩ := handle_path_log env command
  rw [h]
  refine ⟨?_, ?_, ?_, ?_⟩
  · induction probes with
    | nil => rfl
    | cons a t ih => simp [stderr_writes, List.filter_cons]
  · simp
  · induction probes with
    | nil => rfl
    | cons a t ih => simp [execve_calls, List.filterMap_cons]
  · induction probes with
    | nil => rfl
    | cons a t ih => simp [waitpid_calls, List.countP_cons]

theorem stderr_writes_append (l1 l2 : List Event) :
    stderr_writes (l1 ++ l2) = stderr_writes l1 ++ stderr_writes l2 := by
  simp [stderr_writes]

theorem execve_calls_append (l1 l2 : List Event) :
    execve_calls (l1 ++ l2) = execve_calls l1 ++ execve_calls l2 := by
  simp [execve_calls]

theorem waitpid_calls_append (l1 l2 : List Event) :
    waitpid_calls (l1 ++ l2) = waitpid_calls l1 + waitpid_calls l2 := by
  simp [waitpid_calls]

theorem wait_loop_cons (pid : Int) (tail : WaitEnd) (status : Status) (result : WaitResult)
    (later : List WaitResult) :
    wait_loop pid tail status (result :: later) =
      if (!WIFEXITED (match result with
            | WaitResult.reported s => s
            | WaitResult.failed => status) &&
          !WIFSIGNALED (match result with
            | WaitResult.reported s => s
            | WaitResult.failed => status)) = true then
        (Event.waitpid pid :: (wait_loop pid tail (match result with
            | WaitResult.reported s => s
            | WaitResult.failed => status) later).1,
          (wait_loop pid tail (match result with
            | WaitResult.reported s => s
            | WaitResult.failed => status) later).2)
      else ([Event.waitpid pid], Outcome.returned) := by
  cases result <;> rfl

/-- The log of the wait loop holds `waitpid` calls only. -/
theorem wait_loop_log (pid : Int) (tail : WaitEnd) :
    ∀ (waits : List WaitResult) (status : Status),
      ∃ k, (wait_loop pid tail status waits).1 = List.replicate k (Event.waitpid pid) := by
  intro waits
  induction waits with
  | nil =>
    intro status
    cases tail with
    | blocks => exact ⟨1, rfl⟩
    | fails =>
      refine ⟨1, ?_⟩
      show (if (!WIFEXITED status && !WIFSIGNALED status) = true then
        ([Event.waitpid pid], Outcome.spinning) else ([Event.waitpid pid], Outcome.returned)).1 = _
      split <;> rfl
  | cons r later ih =>
    intro status
    cases r with
    | reported s =>
      obtain ⟨k, hk⟩ := ih s
      rw [wait_loop_cons]
      simp only
      split
      · refine ⟨k + 1, ?_⟩
        show Event.waitpid pid :: _ = _
        rw [hk, List.replicate_succ]
      · exact ⟨1, rfl⟩
    | failed =>
      obtain ⟨k, hk⟩ := ih status
      rw [wait_loop_cons]
      simp only
      split
      · refine ⟨k + 1, ?_⟩
        show Event.waitpid pid :: _ = _
        rw [hk, List.replicate_succ]
      · exact ⟨1, rfl⟩

/-- When every `waitpid` call reports a status, whatever `status` held before:
one call for each status up to and including the first that is exited or
signaled; the loop returns exactly when there is such a status and blocks in
`waitpid` otherwise. -/
theorem wait_loop_of_reported (pid : Int) (statuses : List Status) :
    ∀ status : Status,
    (wait_loop pid WaitEnd.blocks status (statuses.map WaitResult.reported)).1 =
      List.replicate
        ((statuses.takeWhile (fun s => !WIFEXITED s && !WIFSIGNALED s)).length + 1)
        (Event.waitpid pid) ∧
    (wait_loop pid WaitEnd.blocks status (statuses.map WaitResult.reported)).2 =
      if statuses.any (fun s => WIFEXITED s || WIFSIGNALED s) then Outcome.returned
      else Outcome.blocked := by
  induction statuses with
  | nil => intro status; exact ⟨rfl, rfl⟩
  | cons s later ih =>
    intro status
    rw [List.map_cons, wait_loop_cons]
    simp only
    by_cases h : (!WIFEXITED s && !WIFSIGNALED s) = true
    · rw [if_pos h, List.takeWhile_cons, if_pos h]
      have h2 : (WIFEXITED s || WIFSIGNALED s) = false := by
        cases h3 : WIFEXITED s <;> cases h4 : WIFSIGNALED s <;> simp [h3, h4] at h ⊢
      refine ⟨?_, ?_⟩
      · simp only [(ih s).1]; rfl
      · simp only [(ih s).2, List.any_cons, h2, Bool.false_or]
    · rw [if_neg h, List.takeWhile_cons, if_neg h]
      have h2 : (WIFEXITED s || WIFSIGNALED s) = true := by
        cases h3 : WIFEXITED s <;> cases h4 : WIFSIGNALED s <;> simp [h3, h4] at h ⊢
      refine ⟨rfl, ?_⟩
      simp only [List.any_cons, h2, Bool.true_or, if_true]

/-! ## Dispatcher claims -/

/-- C3: for every non-empty token sequence whose first token the resolver does
not find, `execute_command` returns after writing to standard error exactly
the one line `<argv>: <command>: command not found`, where `argv` is the
program name passed in and `command` the first token, and it calls neither
`fork` nor `execve`. -/
theorem execute_command_not_found (env : Env) (args : TokenArray) (argv command : CString)
    (rest : List CString) (hargs : argv_of args = some (command :: rest))
    (hnf : (handle_path env command).2 = .ok none) :
    (execute_command env args argv).2 = Outcome.returned ∧
    stderr_writes (execute_command env args argv).1 =
      [Event.stderr (argv ++ ": ".toList ++ command ++ ": command not found\n".toList)] ∧
    Event.fork ∉ (execute_command env args argv).1 ∧
    execve_calls (execute_command env args argv).1 = [] ∧
    waitpid_calls (execute_command env args argv).1 = 0 := by
  obtain ⟨tail, rfl⟩ := argv_of_cons args command rest hargs
  obtain ⟨hq1, hq2, hq3, hq4⟩ := handle_path_log_quiet env command
  rw [execute_command_of_not_found env command tail argv hnf]
  refine ⟨rfl, ?_, ?_, ?_, ?_⟩
  · simp only [stderr_writes_append, hq1, List.nil_append]
    simp [handle_error, stderr_writes]
  · simp [hq2, handle_error]
  · simp only [execve_calls_append, hq3, List.nil_append]
    rfl
  · simp only [waitpid_calls_append, hq4]
    rfl

/-- C4: for every input line made of delimiter characters only, the empty line
included, the vector returned by `parse_input` has the terminator as its first
element, and `execute_command` on it returns with an empty log in every
environment: no `getenv`, no `access`, no `fork`, no write to standard error.
A call of the resolver would show in the log, which always starts with its
`getenv`. -/
theorem execute_command_blank_line (line : CString) (hblank : ∀ c ∈ line, c ∈ DELIMITERS) :
    (∃ st, parse_input grant_all line = .ok st ∧ st.tokens.head? = some Slot.null ∧
      argv_of st.tokens = some [] ∧
      ∀ (env : Env) (argv : CString),
        execute_command env st.tokens argv = ([], Outcome.returned)) ∧
    (∀ alloc, parse_input alloc line = .error .allocation_error ∨
      parse_input alloc line = parse_input grant_all line) ∧
    (∀ (env : Env) (command : CString), (handle_path env command).1 ≠ []) := by
  have hf := spec_fields_of_delims DELIMITERS line hblank
  obtain ⟨st, hrun, hargv, hhead⟩ := parse_input_argv line (by rw [hf]; decide)
  rw [hf] at hargv hhead
  refine ⟨⟨st, hrun, hhead, hargv, ?_⟩, fun alloc => parse_input_any_alloc alloc line, ?_⟩
  · intro env argv
    cases ht : st.tokens with
    | nil => rw [ht] at hhead; cases hhead
    | cons a tail =>
      rw [ht] at hhead
      have ha : a = Slot.null := Option.some.inj hhead
      subst ha
      rfl
  · intro env command h
    obtain ⟨probes, hlog⟩ := handle_path_log env command
    rw [hlog] at h
    cases h

/-- C5: for every token sequence whose first token the resolver finds, the
process in which `fork` returned 0 (the child) calls `execve` once, with the
resolved path as the executable and the token array itself as the argument
vector, whose first string is the typed command; the process in which `fork`
returned anything else calls no `execve`. -/
theorem execute_command_execve_args (env : Env) (args : TokenArray)
    (argv command resolved : CString) (rest : List CString)
    (hargs : argv_of args = some (command :: rest))
    (hfound : (handle_path env command).2 = .ok (some resolved)) :
    execve_calls (execute_command env args argv).1 =
      (if env.fork = 0 then [(resolved, args)] else []) ∧
    (env.fork = 0 →
      (execute_command env args argv).1 =
        (handle_path env command).1 ++ Event.fork :: Event.execve resolved args ::
          (if env.execve_ok then [] else [Event.perror "execve".toList]) ∧
      (execute_command env args argv).2 =
        (if env.execve_ok then Outcome.image_replaced else Outcome.exited 1)) ∧
    (argv_of args).map List.head? = some (some command) := by
  obtain ⟨tail, rfl⟩ := argv_of_cons args command rest hargs
  obtain ⟨hq1, hq2, hq3, hq4⟩ := handle_path_log_quiet env command
  rw [execute_command_of_found env command tail argv resolved hfound]
  refine ⟨?_, ?_, by rw [hargs]; rfl⟩
  · by_cases h0 : env.fork = 0
    · rw [if_pos h0, if_pos h0]
      cases env.execve_ok
      · simp only [Bool.false_eq_true, if_false, execve_calls_append, hq3, List.nil_append]
        rfl
      · simp only [if_true, execve_calls_append, hq3, List.nil_append]
        rfl
    · rw [if_neg h0, if_neg h0]
      by_cases hneg : env.fork < 0
      · rw [if_pos hneg]
        simp only [execve_calls_append, hq3, List.nil_append]
        rfl
      · rw [if_neg hneg]
        obtain ⟨k, hk⟩ := wait_loop_log env.fork env.waits_end env.waits env.status_init
        simp only [execve_calls_append, hq3, List.nil_append, hk]
        simp [execve_calls, List.filterMap_replicate]
  · intro h0
    rw [if_pos h0]
    cases env.execve_ok
    · exact ⟨rfl, rfl⟩
    · exact ⟨rfl, rfl⟩

/-- When no `waitpid` call fails: in the parent branch of `execute_command`
(command found, `fork` returned a positive pid), if every `waitpid` call
reports a status, the call returns to its caller exactly when some reported
status is exited or signaled and otherwise stays in `waitpid`; the number of
`waitpid` calls is the number of leading statuses that are neither exited nor
signaled, plus one. -/
theorem execute_command_waits_when_reported (env : Env) (args : TokenArray)
    (argv command resolved : CString) (rest : List CString) (statuses : List Status)
    (hargs : argv_of args = some (command :: rest))
    (hfound : (handle_path env command).2 = .ok (some resolved))
    (hparent : 0 < env.fork)
    (hwaits : env.waits = statuses.map WaitResult.reported)
    (hend : env.waits_end = WaitEnd.blocks) :
    ((execute_command env args argv).2 =
      if statuses.any (fun s => WIFEXITED s || WIFSIGNALED s) then Outcome.returned
      else Outcome.blocked) ∧
    waitpid_calls (execute_command env args argv).1 =
      (statuses.takeWhile (fun s => !WIFEXITED s && !WIFSIGNALED s)).length + 1 ∧
    (∀ sig, WIFEXITED (Status.stopped sig) = false ∧
      WIFSIGNALED (Status.stopped sig) = false) := by
  obtain ⟨tail, rfl⟩ := argv_of_cons args command rest hargs
  obtain ⟨hq1, hq2, hq3, hq4⟩ := handle_path_log_quiet env command
  have h0 : ¬ env.fork = 0 := by omega
  have hneg : ¬ env.fork < 0 := by omega
  obtain ⟨hw1, hw2⟩ := wait_loop_of_reported env.fork statuses env.status_init
  rw [execute_command_of_found env command tail argv resolved hfound, if_neg h0, if_neg hneg,
    hwaits, hend]
  refine ⟨hw2, ?_, fun sig => ⟨rfl, rfl⟩⟩
  show waitpid_calls ((handle_path env command).1 ++ Event.fork ::
    (wait_loop env.fork WaitEnd.blocks env.status_init
      (statuses.map WaitResult.reported)).1) = _
  rw [waitpid_calls_append, hq4, hw1]
  simp [waitpid_calls, List.countP_cons, List.countP_replicate]

/-- C9 at its failing inputs, the shell running with `SIGCHLD` ignored. With
the first `waitpid` failing and the unset `status` holding 0, the parent
branch returns to its caller after one `waitpid` call although no status was
ever reported. With a stop reported and every later `waitpid` failing, the
stale stopped status is tested again and again and the loop never ends. -/
theorem execute_command_wait_unreported :
    execute_command sigchld_ignored_env [Slot.ptr "ls".toList, Slot.null] "hsh".toList =
      ([Event.getenv "PATH".toList, Event.access "/usr/bin/ls".toList,
          Event.access "/bin/ls".toList, Event.fork, Event.waitpid 5],
        Outcome.returned) ∧
    sigchld_ignored_env.waits = [] ∧
    execute_command stopped_then_gone_env [Slot.ptr "ls".toList, Slot.null] "hsh".toList =
      ([Event.getenv "PATH".toList, Event.access "/usr/bin/ls".toList,
          Event.access "/bin/ls".toList, Event.fork, Event.waitpid 5, Event.waitpid 5],
        Outcome.spinning) :=
  ⟨rfl, rfl, rfl⟩

/-! ## Resolver claims -/

theorem access_probes_handle_path (env : Env) (path command : CString)
    (hp : env.path = some path) :
    access_probes (handle_path env command).1 =
      probes_upto env.access command (search_dirs path) := by
  rw [handle_path_spec env path command hp]
  show access_probes (Event.getenv "PATH".toList ::
    (probes_upto env.access command (search_dirs path)).map Event.access) = _
  generalize probes_upto env.access command (search_dirs path) = l
  induction l with
  | nil => rfl
  | cons a t ih =>
    simp only [access_probes, List.map_cons, List.filterMap_cons] at ih ⊢
    rw [ih]

theorem handle_path_found_iff (env : Env) (path command p : CString)
    (hp : env.path = some path) :
    (handle_path env command).2 = .ok (some p) ↔
      ∃ before d after, search_dirs path = before ++ d :: after ∧
        (∀ b ∈ before, env.access (candidate command b) = false) ∧
        env.access (candidate command d) = true ∧ p = candidate command d := by
  rw [handle_path_spec env path command hp]
  constructor
  · intro h
    have h2 : (first_match env.access command (search_dirs path)).map (candidate command) =
        some p := Except.ok.inj h
    cases hm : first_match env.access command (search_dirs path) with
    | none => rw [hm] at h2; cases h2
    | some d =>
      rw [hm] at h2
      obtain ⟨hacc, before, after, hsplit, hbefore⟩ :=
        (first_match_some_iff env.access command (search_dirs path) d).mp hm
      exact ⟨before, d, after, hsplit, hbefore, hacc, (Option.some.inj h2).symm⟩
  · rintro ⟨before, d, after, hsplit, hbefore, hacc, rfl⟩
    have hm := (first_match_some_iff env.access command (search_dirs path) d).mpr
      ⟨hacc, before, after, hsplit, hbefore⟩
    show Except.ok ((first_match env.access command (search_dirs path)).map
      (candidate command)) = _
    rw [hm]; rfl

theorem handle_path_not_found_iff (env : Env) (path command : CString)
    (hp : env.path = some path) :
    (handle_path env command).2 = .ok none ↔
      ∀ d ∈ search_dirs path, env.access (candidate command d) = false := by
  rw [handle_path_spec env path command hp, ← first_match_none_iff]
  constructor
  · intro h
    have h2 : (first_match env.access command (search_dirs path)).map (candidate command) =
        none := Except.ok.inj h
    cases hm : first_match env.access command (search_dirs path) with
    | none => rfl
    | some d => rw [hm] at h2; cases h2
  · intro hm
    show Except.ok ((first_match env.access command (search_dirs path)).map
      (candidate command)) = _
    rw [hm]; rfl

/-- C2: for every command and every search-path string, `handle_path` probes
the candidates of the directories of the search path from left to right and
stops at the first that passes the access check: it returns a path exactly
when that path is the candidate of a directory whose candidate passes while
the candidates of all directories to its left fail, and it returns not-found
exactly when no directory has a candidate that passes. The directories are
the maximal `:`-free runs of the search-path string. -/
theorem handle_path_leftmost_match (env : Env) (path command : CString)
    (hp : env.path = some path) :
    (∀ p, (handle_path env command).2 = .ok (some p) ↔
      ∃ before d after, search_dirs path = before ++ d :: after ∧
        (∀ b ∈ before, env.access (candidate command b) = false) ∧
        env.access (candidate command d) = true ∧ p = candidate command d) ∧
    ((handle_path env command).2 = .ok none ↔
      ∀ d ∈ search_dirs path, env.access (candidate command d) = false) ∧
    ((handle_path env command).2 = .ok none ∨ ∃ p, (handle_path env command).2 = .ok (some p)) ∧
    access_probes (handle_path env command).1 =
      ((search_dirs path).takeWhile (fun d => !env.access (candidate command d))).map
          (candidate command) ++
        (((search_dirs path).find? (fun d => env.access (candidate command d))).map
          (candidate command)).toList ∧
    MaximalRuns [':'] path (search_dirs path) := by
  refine ⟨fun p => handle_path_found_iff env path command p hp,
    handle_path_not_found_iff env path command hp, ?_,
    access_probes_handle_path env path command hp,
    spec_fields_maximal_runs [':'] (path.length + 1) path (by omega)⟩
  rw [handle_path_spec env path command hp]
  cases first_match env.access command (search_dirs path) with
  | none => left; rfl
  | some d => right; exact ⟨_, rfl⟩

theorem candidate_eq (command directory : CString) :
    candidate command directory = (directory ++ '/' :: command).take 1023 := rfl

theorem candidate_short (command directory : CString)
    (h : directory.length + 1 + command.length ≤ 1023) :
    candidate command directory = directory ++ '/' :: command := by
  rw [candidate_eq]
  apply List.take_of_length_le
  simp only [List.length_append, List.length_cons]
  omega

/-- C6 at its failing inputs: with the 1004-character directory `deep_dir` on
the search path and a command of 30 letters `x`, the path tested is
`deep_dir + "/"` followed by 18 letters `x`, not `deep_dir + "/" + command`.
Where the file of 18 letters is executable, `handle_path` returns the path of
that other file; where only the file named by the command is executable,
`handle_path` returns not-found although `deep_dir + "/" + command` passes
the access check. -/
theorem handle_path_candidate_not_concatenation :
    handle_path deep_env (List.replicate 30 'x') =
      ([Event.getenv "PATH".toList, Event.access (deep_dir ++ '/' :: List.replicate 18 'x')],
        .ok (some (deep_dir ++ '/' :: List.replicate 18 'x'))) ∧
    deep_dir ++ '/' :: List.replicate 18 'x' ≠ deep_dir ++ '/' :: List.replicate 30 'x' ∧
    deep_env.access (deep_dir ++ '/' :: List.replicate 30 'x') = false ∧
    handle_path deep_env_long_name (List.replicate 30 'x') =
      ([Event.getenv "PATH".toList, Event.access (deep_dir ++ '/' :: List.replicate 18 'x')],
        .ok none) ∧
    deep_env_long_name.access (deep_dir ++ '/' :: List.replicate 30 'x') = true ∧
    search_dirs deep_dir = [deep_dir] := by
  refine ⟨rfl, ?_, rfl, rfl, rfl, rfl⟩
  intro h
  have hlen := congrArg List.length h
  simp only [List.length_append, List.length_cons, List.length_replicate] at hlen
  omega

/-- C7 at its failing input: with the search-path variable not set,
`handle_path` hands the NULL from `getenv` to `strdup` and faults, for every
command, and so does `execute_command` on the tokens of `ls`; with the
variable set to the empty string it probes nothing and returns not-found. -/
theorem handle_path_unset_faults (access : CString → Bool) (fork : Int) (execve_ok : Bool)
    (status_init : Status) (waits : List WaitResult) (waits_end : WaitEnd)
    (command : CString) :
    handle_path ⟨none, access, fork, execve_ok, status_init, waits, waits_end⟩ command =
      ([Event.getenv "PATH".toList], .error .null_deref) ∧
    execute_command unset_env [Slot.ptr "ls".toList, Slot.null] "hsh".toList =
      ([Event.getenv "PATH".toList], Outcome.fault .null_deref) ∧
    handle_path ⟨some [], access, fork, execve_ok, status_init, waits, waits_end⟩ command =
      ([Event.getenv "PATH".toList], .ok none) :=
  ⟨rfl, rfl, rfl⟩

/-- C8, as the code has it: called with the empty command, `handle_path` tests
for each directory of the search path its candidate, which is
`directory + "/"` for a directory of at most 1022 characters, and returns the
left-most candidate that passes the access check; it returns not-found
exactly when none passes, in particular when the search path holds no
directory. The dispatcher never makes this call: the first token returned by
`parse_input` is never the empty string. -/
theorem handle_path_empty_command (env : Env) (path : CString) (hp : env.path = some path) :
    ((handle_path env []).2 = .ok none ↔
      ∀ d ∈ search_dirs path, env.access (candidate [] d) = false) ∧
    (∀ p, (handle_path env []).2 = .ok (some p) ↔
      ∃ before d after, search_dirs path = before ++ d :: after ∧
        (∀ b ∈ before, env.access (candidate [] b) = false) ∧
        env.access (candidate [] d) = true ∧ p = candidate [] d) ∧
    (∀ d : CString, d.length ≤ 1022 → candidate [] d = d ++ ['/']) ∧
    (search_dirs path = [] → (handle_path env []).2 = .ok none) ∧
    (∀ line st, parse_input grant_all line = .ok st →
      st.tokens.head? ≠ some (Slot.ptr [])) := by
  refine ⟨handle_path_not_found_iff env path [] hp,
    fun p => handle_path_found_iff env path [] p hp,
    fun d hd => candidate_short [] d (by simp only [List.length_nil]; omega), ?_, ?_⟩
  · intro hnil
    rw [handle_path_not_found_iff env path [] hp, hnil]
    intro d hd
    cases hd
  · intro line st hrun hhead
    obtain ⟨st2, hrun2, _, hhead2⟩ := parse_input_argv line (parse_input_ok_few line st hrun)
    have hst : st2 = st := Except.ok.inj (hrun2.symm.trans hrun)
    subst hst
    rw [hhead] at hhead2
    have hclean := (spec_fields_maximal_runs DELIMITERS (line.length + 1) line
      (by omega)).tokens_clean
    cases hf : spec_fields DELIMITERS line with
    | nil => rw [hf] at hhead2; cases hhead2
    | cons t ts =>
      rw [hf] at hhead2 hclean
      have ht : Slot.ptr [] = Slot.ptr t := Option.some.inj hhead2
      have : t = [] := (Slot.ptr.inj ht).symm
      exact (hclean t (List.mem_cons_self _ _)).1 this

/-- C8 fails as stated: with `/bin` on the search path and `/bin/` passing the
access check, `handle_path` called with the empty command returns `/bin/`. -/
theorem handle_path_empty_command_found :
    handle_path bin_env [] =
      ([Event.getenv "PATH".toList, Event.access "/bin/".toList],
        .ok (some "/bin/".toList)) :=
  rfl

/-! ## The claims at concrete inputs -/

/-- C2 at `PATH=/usr/bin:/bin` with only `/bin/ls` executable: `/usr/bin/ls` is
probed first, then `/bin/ls`, which is returned. -/
theorem handle_path_leftmost_match_witness :
    sample_env.path = some "/usr/bin:/bin".toList ∧
    access_probes (handle_path sample_env "ls".toList).1 =
      ["/usr/bin/ls".toList, "/bin/ls".toList] ∧
    ((handle_path sample_env "ls".toList).2 = .ok (some "/bin/ls".toList) ↔
      ∃ before d after, search_dirs "/usr/bin:/bin".toList = before ++ d :: after ∧
        (∀ b ∈ before, sample_env.access (candidate "ls".toList b) = false) ∧
        sample_env.access (candidate "ls".toList d) = true ∧
        "/bin/ls".toList = candidate "ls".toList d) :=
  ⟨rfl, (handle_path_leftmost_match sample_env "/usr/bin:/bin".toList "ls".toList rfl).2.2.2.1,
    (handle_path_leftmost_match sample_env "/usr/bin:/bin".toList "ls".toList rfl).1
      "/bin/ls".toList⟩

/-- C3 at the tokens of `lsx`, a name absent from `/usr/bin` and `/bin`. -/
theorem execute_command_not_found_witness :
    argv_of [Slot.ptr "lsx".toList, Slot.null] = some ["lsx".toList] ∧
    (handle_path sample_env "lsx".toList).2 = .ok none ∧
    stderr_writes (execute_command sample_env [Slot.ptr "lsx".toList, Slot.null] "hsh".toList).1 =
      [Event.stderr "hsh: lsx: command not found\n".toList] ∧
    Event.fork ∉ (execute_command sample_env [Slot.ptr "lsx".toList, Slot.null] "hsh".toList).1 :=
  ⟨rfl, rfl,
    (execute_command_not_found sample_env [Slot.ptr "lsx".toList, Slot.null] "hsh".toList
      "lsx".toList [] rfl rfl).2.1,
    (execute_command_not_found sample_env [Slot.ptr "lsx".toList, Slot.null] "hsh".toList
      "lsx".toList [] rfl rfl).2.2.1⟩

/-- C4 at a line of two blanks, a tab and a newline. -/
theorem execute_command_blank_line_witness :
    (∀ c ∈ "  \t\n".toList, c ∈ DELIMITERS) ∧
    ∃ st, parse_input grant_all "  \t\n".toList = .ok st ∧ st.tokens.head? = some Slot.null ∧
      argv_of st.tokens = some [] ∧
      ∀ (env : Env) (argv : CString),
        execute_command env st.tokens argv = ([], Outcome.returned) :=
  ⟨by decide, (execute_command_blank_line "  \t\n".toList (by decide)).1⟩

/-- C5 at the tokens of `ls -l` in the child: `execve` gets `/bin/ls` and the
vector `ls`, `-l`. -/
theorem execute_command_execve_args_witness :
    argv_of [Slot.ptr "ls".toList, Slot.ptr "-l".toList, Slot.null] =
      some ["ls".toList, "-l".toList] ∧
    (handle_path sample_child_env "ls".toList).2 = .ok (some "/bin/ls".toList) ∧
    execve_calls (execute_command sample_child_env
        [Slot.ptr "ls".toList, Slot.ptr "-l".toList, Slot.null] "hsh".toList).1 =
      [("/bin/ls".toList, [Slot.ptr "ls".toList, Slot.ptr "-l".toList, Slot.null])] :=
  ⟨rfl, rfl,
    (execute_command_execve_args sample_child_env
      [Slot.ptr "ls".toList, Slot.ptr "-l".toList, Slot.null] "hsh".toList "ls".toList
      "/bin/ls".toList ["-l".toList] rfl rfl).1⟩

/-- C8 at `PATH=/bin` with `/bin/` passing the access check. -/
theorem handle_path_empty_command_witness :
    bin_env.path = some "/bin".toList ∧
    ((handle_path bin_env []).2 = .ok none ↔
      ∀ d ∈ search_dirs "/bin".toList, bin_env.access (candidate [] d) = false) :=
  ⟨rfl, (handle_path_empty_command bin_env "/bin".toList rfl).1⟩

end SimpleShell
